import Mathlib

/-!
Verification development for the labor-quiz repository (src/main.py).

Text is modelled as `List Char`; a sequence of document paragraphs as
`List (List Char)`.  The parser `load_questions_from_docx` is embedded
operation by operation:

* line 96: `" ".join([p.text.strip() for p in doc.paragraphs if p.text.strip()])`
  becomes `normalize` (the document loader that yields the paragraph strings is
  an external collaborator and is taken as input);
* lines 97-98: `re.finditer(r"(\d+)\. ", text)` becomes `findAnchors`
  (left-to-right scan for non-overlapping matches of one-or-more decimal
  digits, then a full stop, then a single space);
* lines 101-104: the slicing loop becomes `segmentsFrom`;
* line 106: `re.split(r"([①-⑤])", segment)` becomes `splitChoices`
  (the separator characters are kept as singleton pieces);
* line 109: `parts[0].split(". ", 1)[-1].strip()` becomes
  `pyStrip (afterDotSpace _)`;
* line 110: the pairing comprehension becomes `rawChoicesOf`;
* line 113: the dict comprehension becomes `buildChoices` (Python dicts keep
  the first-insertion position of a key and overwrite its value);
* lines 22-88: the value-level behaviour of `bing_search` becomes `bingSearch`,
  a function of the HTTP outcome (the transport itself is an external
  collaborator).
-/

namespace LaborQuiz

/-- Whitespace as recognized by Python `str.strip` / `str.isspace`, i.e. the
code points Python treats as whitespace. -/
def pyIsSpace (c : Char) : Bool :=
  c = ' ' || c = '\t' || c = '\n' || c = '\x0b' || c = '\x0c' || c = '\r' ||
  c = '\x1c' || c = '\x1d' || c = '\x1e' || c = '\x1f' || c = '\x85' || c = '\xa0' ||
  c = '\u1680' || ('\u2000' ≤ c && c ≤ '\u200a') || c = '\u2028' || c = '\u2029' ||
  c = '\u202f' || c = '\u205f' || c = '\u3000'

/-- Python `s.strip()`: remove whitespace from both ends of the string. -/
def pyStrip (s : List Char) : List Char :=
  List.rdropWhile pyIsSpace (s.dropWhile pyIsSpace)

/-- Python `" ".join(pieces)`. -/
def joinSp : List (List Char) → List Char
  | [] => []
  | [s] => s
  | s :: rest => s ++ ' ' :: joinSp rest

/-- main.py line 96: trim every paragraph, drop the ones that become empty,
join the survivors with one space. -/
def normalize (ps : List (List Char)) : List Char :=
  joinSp ((ps.map pyStrip).filter (fun s => !s.isEmpty))

/-- Decimal digit as matched by `\d` in the source's regexes (the inputs in
this development use only ASCII digits). -/
def pyIsDigit (c : Char) : Bool :=
  c.isDigit

/-- Length of the maximal run of decimal digits at the head of the list. -/
def digitRunLen : List Char → Nat
  | c :: rest => if pyIsDigit c then digitRunLen rest + 1 else 0
  | [] => 0

/-- Length of the match of the question-anchor regex `(\d+)\. ` (digits, full
stop, one space) at the head of `s`, if any.  The greedy `\d+` commits to the
maximal digit run: shorter runs would leave a digit where the full stop is
required, so backtracking can never succeed. -/
def anchorMatchLen (s : List Char) : Option Nat :=
  let k := digitRunLen s
  if k = 0 then none
  else
    match s.drop k with
    | '.' :: ' ' :: _ => some (k + 2)
    | _ => none

/-- Left-to-right scan for non-overlapping matches of the question-anchor
regex, as `re.finditer` performs it (main.py line 97).  `skip` counts the
characters of the current match that are still to be consumed: while it is
positive no new match may start (non-overlap).  `pos` is the absolute offset
of the head of the remaining list. -/
def scanAux : Nat → Nat → List Char → List Nat
  | _, _, [] => []
  | skip + 1, pos, _ :: rest => scanAux skip (pos + 1) rest
  | 0, pos, c :: rest =>
    match anchorMatchLen (c :: rest) with
    | some len => pos :: scanAux (len - 1) (pos + 1) rest
    | none => scanAux 0 (pos + 1) rest

/-- Start offsets of all question anchors of `text`, in scan order. -/
def findAnchors (text : List Char) : List Nat :=
  scanAux 0 0 text

/-- Python slice `text[b:e]`. -/
def pySlice (text : List Char) (b e : Nat) : List Char :=
  (text.drop b).take (e - b)

/-- main.py lines 98-104: every anchor start up to the next anchor start (the
last one up to the end-of-text sentinel), each slice trimmed. -/
def segmentsFrom (text : List Char) : List Nat → List (List Char)
  | [] => []
  | [b] => [pyStrip (pySlice text b text.length)]
  | b :: b2 :: rest => pyStrip (pySlice text b b2) :: segmentsFrom text (b2 :: rest)

/-- Character class of `CHOICE_REGEX = r"([①-⑤])"` (main.py line
92): the circled digits 1-5. -/
def isChoiceLabel (c : Char) : Bool :=
  '①' ≤ c && c ≤ '⑤'

/-- `re.split(CHOICE_REGEX, segment)` (main.py line 106).  Because the
pattern is a single-character class inside a capture group, the result
alternates text pieces and singleton label pieces, starting and ending with a
text piece. -/
def splitChoices : List Char → List (List Char)
  | [] => [[]]
  | c :: cs =>
    match splitChoices cs with
    | [] => []
    | p :: rest =>
      if isChoiceLabel c then [] :: [c] :: p :: rest else (c :: p) :: rest

/-- Whether `". "` occurs somewhere in the list. -/
def hasDotSpace : List Char → Bool
  | '.' :: ' ' :: _ => true
  | _ :: rest => hasDotSpace rest
  | [] => false

/-- Python `s.split(". ", 1)[-1]`: everything after the first occurrence of
`". "`, or the whole string when there is none (main.py line 109). -/
def afterDotSpace : List Char → List Char
  | [] => []
  | [c] => [c]
  | c :: c2 :: rest =>
    if c = '.' ∧ c2 = ' ' then rest
    else if hasDotSpace (c2 :: rest) then afterDotSpace (c2 :: rest) else c :: c2 :: rest

/-- Adjacent pairs of the list, each pair concatenated; a trailing unpaired
element is ignored. -/
def pairJoin : List (List Char) → List (List Char)
  | a :: b :: rest => (a ++ b) :: pairJoin rest
  | _ => []

/-- main.py line 110: `[parts[j] + parts[j+1] for j in range(1, len(parts)-1, 2)]`
pairs every label piece with the text piece that follows it. -/
def rawChoicesOf (parts : List (List Char)) : List (List Char) :=
  match parts with
  | [] => []
  | _ :: rest => pairJoin rest

/-- Insertion into a Python dict: an existing key keeps its position and gets
the new value, a new key goes to the end. -/
def dictInsert (k : Char) (v : List Char) : List (Char × List Char) → List (Char × List Char)
  | [] => [(k, v)]
  | (k0, v0) :: rest =>
    if k0 = k then (k0, v) :: rest else (k0, v0) :: dictInsert k v rest

/-- One step of the dict comprehension of main.py line 113: `c[0]` is the
key, `c[1:].strip()` the value.  An empty `c` would raise IndexError in
Python; it never occurs because every raw choice starts with its label
character, and the embedding skips it. -/
def choiceStep (d : List (Char × List Char)) (c : List Char) : List (Char × List Char) :=
  match c with
  | k :: v => dictInsert k (pyStrip v) d
  | [] => d

/-- main.py line 113: `{c[0]: c[1:].strip() for c in raw_choices[:5]}`. -/
def buildChoices (raw : List (List Char)) : List (Char × List Char) :=
  raw.foldl choiceStep []

/-- First-occurrence deduplication: keeps the first occurrence of every
element and drops the later ones, preserving the order of first occurrence.
This is the key order of a Python dict built by successive insertions. -/
def firstDedup : List Char → List Char
  | [] => []
  | k :: ks => k :: (firstDedup ks).filter (fun x => decide (x ≠ k))

/-- One parsed question: main.py line 114. -/
structure QuestionRecord where
  question : List Char
  choices : List (Char × List Char)
deriving DecidableEq

/-- main.py lines 106-114, the body of the per-segment loop: `none` models
`continue`, `parts[0]` is `headD []` (the split result is never empty), and
`raw_choices[:5]` is `take 5`. -/
def parseSegment (seg : List Char) : Option QuestionRecord :=
  if (splitChoices seg).length < 3 then none
  else if (rawChoicesOf (splitChoices seg)).length < 5 then none
  else some
    { question := pyStrip (afterDotSpace ((splitChoices seg).headD []))
      choices := buildChoices ((rawChoicesOf (splitChoices seg)).take 5) }

/-- Raw question segments of the flattened text, in document order. -/
def segmentsOf (text : List Char) : List (List Char) :=
  segmentsFrom text (findAnchors text)

/-- main.py lines 97-115: the whole parser on the flattened text. -/
def loadQuestions (text : List Char) : List QuestionRecord :=
  (segmentsOf text).filterMap parseSegment

/-- main.py lines 94-115 on the paragraph sequence supplied by the document
loader. -/
def loadQuestionsFromDocx (paragraphs : List (List Char)) : List QuestionRecord :=
  loadQuestions (normalize paragraphs)

/-! ### The search collaborator (main.py lines 22-88) -/

/-- One entry of `webPages.value` in the Bing response; `snippet` is the
optional field read with `item.get("snippet", "")`. -/
structure WebItem where
  name : List Char
  url : List Char
  snippet : Option (List Char)
deriving DecidableEq

/-- One element of the list `bing_search` returns. -/
structure SearchResult where
  name : List Char
  url : List Char
  snippet : List Char
deriving DecidableEq

/-- Outcome of the HTTP request made by `bing_search`, abstracting the
transport: a 200 response with its parsed `webPages.value` list, an HTTP
error status (from `raise_for_status`), a connection failure, a timeout, a
body that is not valid JSON, or any other request error. -/
inductive HttpOutcome where
  | ok (items : List WebItem)
  | httpError (status : Nat) (body : List Char)
  | connectionError
  | timeout
  | jsonDecodeError (raw : List Char)
  | otherRequestError
deriving DecidableEq

/-- Value-level behaviour of `bing_search`: the list it returns for each
outcome of the request (the `st.error` / `st.code` calls are UI side effects
and do not reach the return value). -/
def bingSearch (hasApiKey : Bool) (outcome : HttpOutcome) : List SearchResult :=
  if !hasApiKey then []
  else
    match outcome with
    | .ok items =>
      items.map (fun it => { name := it.name, url := it.url, snippet := it.snippet.getD [] })
    | _ => []

/-! ### Definitions following the spec's words, for the refinement claims -/

/-- Joining two flattened texts with a single separating space, unless one of
them is empty.  Used to state that `normalize` preserves paragraph order. -/
def spaceJoin (a b : List Char) : List Char :=
  if a.isEmpty then b else if b.isEmpty then a else a ++ ' ' :: b

/-- Modelled from the spec (§4.2 step 1): length of the greedy match of the
pattern "one or more decimal digits, followed by '.', followed by one or more
whitespace characters" at the head of `s`, if any. -/
def specAnchorLen (s : List Char) : Option Nat :=
  let ds := s.takeWhile pyIsDigit
  if ds.length = 0 then none
  else
    match s.drop ds.length with
    | '.' :: rest2 =>
      let ws := rest2.takeWhile pyIsSpace
      if ws.length = 0 then none else some (ds.length + 1 + ws.length)
    | _ => none

/-- Modelled from the spec: left-to-right scan for all non-overlapping
occurrences of the spec's anchor pattern. -/
def specScanAux : Nat → Nat → List Char → List Nat
  | _, _, [] => []
  | skip + 1, pos, _ :: rest => specScanAux skip (pos + 1) rest
  | 0, pos, c :: rest =>
    match specAnchorLen (c :: rest) with
    | some len => pos :: specScanAux (len - 1) (pos + 1) rest
    | none => specScanAux 0 (pos + 1) rest

/-- Modelled from the spec: start offsets of all anchors of the spec's
anchor pattern. -/
def specFindAnchors (text : List Char) : List Nat :=
  specScanAux 0 0 text

/-- Amended anchor pattern, stated in the spec's style: length of the match
of "one or more decimal digits, followed by '.', followed by exactly one
space character" at the head of `s`, if any. -/
def singleSpaceAnchorLen (s : List Char) : Option Nat :=
  let ds := s.takeWhile pyIsDigit
  if ds.length = 0 then none
  else
    match s.drop ds.length with
    | '.' :: ' ' :: _ => some (ds.length + 2)
    | _ => none

/-- Left-to-right scan for all non-overlapping occurrences of the amended
anchor pattern. -/
def singleSpaceScanAux : Nat → Nat → List Char → List Nat
  | _, _, [] => []
  | skip + 1, pos, _ :: rest => singleSpaceScanAux skip (pos + 1) rest
  | 0, pos, c :: rest =>
    match singleSpaceAnchorLen (c :: rest) with
    | some len => pos :: singleSpaceScanAux (len - 1) (pos + 1) rest
    | none => singleSpaceScanAux 0 (pos + 1) rest

/-- Start offsets of all anchors of the amended pattern. -/
def singleSpaceFindAnchors (text : List Char) : List Nat :=
  singleSpaceScanAux 0 0 text

/-! ### Concrete documents used in witnesses and counterexamples -/

/-- Flattened text whose only segment repeats the circled digit 2. -/
def c1text : List Char := "1. Q ②a ②b ③c ④d ⑤e".data

/-- Well-formed one-question flattened text. -/
def c1wtext : List Char := "1. Q ①a ②b ③c ④d ⑤e".data

/-- The record parsed from `c1wtext`. -/
def c1wrec : QuestionRecord :=
  { question := "Q".data
    choices := [('①', "a".data), ('②', "b".data), ('③', "c".data),
                ('④', "d".data), ('⑤', "e".data)] }

/-- Flattened text whose question body is empty: the numeral anchor is
followed directly by the first choice. -/
def c2text : List Char := "1. ①a ②b ③c ④d ⑤e".data

/-- Well-formed one-question flattened text. -/
def c2wtext : List Char := "2. W ①a ②b ③c ④d ⑤e".data

/-- The record parsed from `c2wtext`. -/
def c2wrec : QuestionRecord :=
  { question := "W".data
    choices := [('①', "a".data), ('②', "b".data), ('③', "c".data),
                ('④', "d".data), ('⑤', "e".data)] }

/-- Text in which the numeral and full stop are followed by a tab. -/
def c3text : List Char := "1.\tx".data

/-- Flattened text whose first segment has only four choice anchors. -/
def c6t : List Char := "1. A ①a ②b ③c ④d 2. B ①a ②b ③c ④d ⑤e".data

/-- Variant of `c6t` with all five anchors present in the first segment. -/
def c6t' : List Char := "1. A ①a ②b ③c ④d ⑤e 2. B ①a ②b ③c ④d ⑤e".data

/-- The four-anchor first segment of `c6t`. -/
def c6s : List Char := "1. A ①a ②b ③c ④d".data

/-- The five-anchor first segment of `c6t'`. -/
def c6s' : List Char := "1. A ①a ②b ③c ④d ⑤e".data

/-- The segments following the first one, shared by `c6t` and `c6t'`. -/
def c6B : List (List Char) := ["2. B ①a ②b ③c ④d ⑤e".data]

/-- The record parsed from `c6s'`. -/
def c6rec : QuestionRecord :=
  { question := "A".data
    choices := [('①', "a".data), ('②', "b".data), ('③', "c".data),
                ('④', "d".data), ('⑤', "e".data)] }

/-- The two paragraphs of the end-to-end scenario of the spec (§8). -/
def c7paragraphs : List (List Char) :=
  ["1. 근로기준법상 근로자는?".data,
   "①사용자 ②사업주 ③노무를 제공하는 자 ④대표이사 ⑤주주".data]

/-- The record the end-to-end scenario must produce. -/
def c7rec : QuestionRecord :=
  { question := "근로기준법상 근로자는?".data
    choices := [('①', "사용자".data), ('②', "사업주".data),
                ('③', "노무를 제공하는 자".data), ('④', "대표이사".data),
                ('⑤', "주주".data)] }

/-- Flattened text with no whitespace between a choice's text and the next
anchor. -/
def c8text : List Char := "1. Q ①aaa②bbb③ccc④ddd⑤eee".data

/-- The record parsed from `c8text`. -/
def c8rec : QuestionRecord :=
  { question := "Q".data
    choices := [('①', "aaa".data), ('②', "bbb".data), ('③', "ccc".data),
                ('④', "ddd".data), ('⑤', "eee".data)] }

/-- Text containing no decimal digit at all, hence no anchor match. -/
def c9text : List Char := "no question markers here".data

/-- Well-formed one-question flattened text. -/
def c10wtext : List Char := "3. X ①a ②b ③c ④d ⑤e".data

/-- The record parsed from `c10wtext`. -/
def c10wrec : QuestionRecord :=
  { question := "X".data
    choices := [('①', "a".data), ('②', "b".data), ('③', "c".data),
                ('④', "d".data), ('⑤', "e".data)] }

/-- Shape of the tail of a `splitChoices` result: singleton label pieces
alternating with text pieces. -/
inductive AltChoices : List (List Char) → Prop where
  | nil : AltChoices []
  | cons (k : Char) (p : List Char) (rest : List (List Char)) :
      isChoiceLabel k = true → AltChoices rest → AltChoices ([k] :: p :: rest)

/-! ## Lemmas about the embedded operations -/

theorem mem_of_mem_pyStrip {c : Char} {s : List Char} (h : c ∈ pyStrip s) : c ∈ s := by
  have h1 : c ∈ s.dropWhile pyIsSpace :=
    (List.rdropWhile_prefix pyIsSpace (s.dropWhile pyIsSpace)).subset h
  exact (List.dropWhile_sublist pyIsSpace).subset h1

theorem dropWhile_pyStrip (s : List Char) :
    (pyStrip s).dropWhile pyIsSpace = pyStrip s := by
  unfold pyStrip
  have hdt : (s.dropWhile pyIsSpace).dropWhile pyIsSpace = s.dropWhile pyIsSpace :=
    List.dropWhile_idempotent _ _
  cases hu : List.rdropWhile pyIsSpace (s.dropWhile pyIsSpace) with
  | nil => simp
  | cons a u' =>
    have hpre : List.rdropWhile pyIsSpace (s.dropWhile pyIsSpace) <+: s.dropWhile pyIsSpace :=
      List.rdropWhile_prefix _ _
    rw [hu] at hpre
    cases ht : s.dropWhile pyIsSpace with
    | nil =>
      rw [ht] at hpre
      have := hpre.length_le
      simp at this
    | cons b t' =>
      rw [ht] at hpre hdt
      have hab : a = b := by
        have hh := hpre.head (by simp)
        simpa using hh
      subst hab
      have hpa : pyIsSpace a = false := by
        by_contra hcon
        have hpa' : pyIsSpace a = true := by
          cases hx : pyIsSpace a
          · exact absurd hx hcon
          · rfl
        rw [List.dropWhile_cons, if_pos hpa'] at hdt
        have hle := (List.dropWhile_sublist (l := t') pyIsSpace).length_le
        rw [hdt] at hle
        simp at hle
      rw [List.dropWhile_cons, if_neg (by simp [hpa])]

theorem pyStrip_idem (s : List Char) : pyStrip (pyStrip s) = pyStrip s := by
  show List.rdropWhile pyIsSpace ((pyStrip s).dropWhile pyIsSpace) = pyStrip s
  rw [dropWhile_pyStrip]
  show List.rdropWhile pyIsSpace (List.rdropWhile pyIsSpace (s.dropWhile pyIsSpace)) = _
  rw [List.rdropWhile_idempotent]
  rfl

theorem mem_joinSp {c : Char} : ∀ {l : List (List Char)},
    c ∈ joinSp l → c = ' ' ∨ ∃ s ∈ l, c ∈ s
  | [], h => by simp [joinSp] at h
  | [s], h => Or.inr ⟨s, by simp, by simpa [joinSp] using h⟩
  | s :: s2 :: rest, h => by
    simp only [joinSp] at h
    rcases List.mem_append.1 h with h1 | h2
    · exact Or.inr ⟨s, by simp, h1⟩
    · rcases List.mem_cons.1 h2 with h3 | h4
      · exact Or.inl h3
      · rcases mem_joinSp h4 with h5 | ⟨u, hu1, hu2⟩
        · exact Or.inl h5
        · exact Or.inr ⟨u, List.mem_cons_of_mem s hu1, hu2⟩

theorem joinSp_ne_nil : ∀ {l : List (List Char)},
    (∀ x ∈ l, x ≠ []) → l ≠ [] → joinSp l ≠ []
  | [], _, h => absurd rfl h
  | [s], hx, _ => by simpa [joinSp] using hx s (by simp)
  | _ :: _ :: _, _, _ => by
    simp only [joinSp]
    intro hcon
    simp at hcon

theorem spaceJoin_nil_left (b : List Char) : spaceJoin [] b = b := by
  simp [spaceJoin]

theorem spaceJoin_nil_right (a : List Char) : spaceJoin a [] = a := by
  rw [spaceJoin]
  by_cases h : a.isEmpty
  · simp only [h, if_true]
    simp only [List.isEmpty_iff] at h
    exact h.symm
  · simp [h]

theorem spaceJoin_of_ne_nil {a b : List Char} (ha : a ≠ []) (hb : b ≠ []) :
    spaceJoin a b = a ++ ' ' :: b := by
  rw [spaceJoin, if_neg (by simpa using ha), if_neg (by simpa using hb)]

theorem joinSp_append : ∀ (xs ys : List (List Char)),
    (∀ x ∈ xs, x ≠ []) → (∀ y ∈ ys, y ≠ []) →
    joinSp (xs ++ ys) = spaceJoin (joinSp xs) (joinSp ys)
  | [], ys, _, _ => by simp [joinSp, spaceJoin_nil_left]
  | [s], ys, hx, hy => by
    have hs : s ≠ [] := hx s (by simp)
    cases ys with
    | nil => simp [joinSp, spaceJoin_nil_right]
    | cons y ys' =>
      have hyn : joinSp (y :: ys') ≠ [] := joinSp_ne_nil hy (by simp)
      have hcons : joinSp ([s] ++ y :: ys') = s ++ ' ' :: joinSp (y :: ys') := rfl
      rw [hcons, show joinSp [s] = s from rfl, spaceJoin_of_ne_nil hs hyn]
  | s :: s2 :: rest, ys, hx, hy => by
    have htail : ∀ x ∈ s2 :: rest, x ≠ [] := fun x hxm => hx x (List.mem_cons_of_mem s hxm)
    have hJ : joinSp (s2 :: rest) ≠ [] := joinSp_ne_nil htail (by simp)
    have hS : joinSp (s :: s2 :: rest) ≠ [] := by
      simp only [joinSp]
      simp
    have ih := joinSp_append (s2 :: rest) ys htail hy
    have hcons : joinSp ((s :: s2 :: rest) ++ ys) = s ++ ' ' :: joinSp ((s2 :: rest) ++ ys) := rfl
    rw [hcons, ih]
    cases hys : ys with
    | nil =>
      rw [show joinSp ([] : List (List Char)) = [] from rfl,
        spaceJoin_nil_right, spaceJoin_nil_right]
      rfl
    | cons y ys' =>
      rw [← hys]
      have hY : joinSp ys ≠ [] := joinSp_ne_nil hy (by simp [hys])
      rw [spaceJoin_of_ne_nil hJ hY, spaceJoin_of_ne_nil hS hY]
      have hfold : joinSp (s :: s2 :: rest) = s ++ ' ' :: joinSp (s2 :: rest) := rfl
      rw [hfold]
      simp

theorem dictInsert_keys (k : Char) (v : List Char) :
    ∀ d : List (Char × List Char),
      (dictInsert k v d).map Prod.fst =
        if k ∈ d.map Prod.fst then d.map Prod.fst else d.map Prod.fst ++ [k]
  | [] => by simp [dictInsert]
  | (k0, v0) :: rest => by
    by_cases h : k0 = k
    · subst h
      simp [dictInsert]
    · have hne : ¬(k = k0) := fun hc => h hc.symm
      rw [show dictInsert k v ((k0, v0) :: rest) = (k0, v0) :: dictInsert k v rest from by
        simp [dictInsert, h]]
      simp only [List.map_cons]
      rw [dictInsert_keys k v rest]
      by_cases h2 : k ∈ rest.map Prod.fst
      · rw [if_pos h2, if_pos (by simp [h2])]
      · rw [if_neg h2, if_neg (by simp [hne, h2]), List.cons_append]

theorem mem_firstDedup : ∀ {l : List Char} {x : Char}, x ∈ firstDedup l ↔ x ∈ l
  | [], x => by simp [firstDedup]
  | k :: ks, x => by
    simp only [firstDedup, List.mem_cons, List.mem_filter]
    constructor
    · rintro (rfl | ⟨h1, _⟩)
      · exact Or.inl rfl
      · exact Or.inr (mem_firstDedup.1 h1)
    · rintro (rfl | h)
      · exact Or.inl rfl
      · by_cases hxk : x = k
        · exact Or.inl hxk
        · exact Or.inr ⟨mem_firstDedup.2 h, by simpa using hxk⟩

theorem firstDedup_nodup : ∀ l : List Char, (firstDedup l).Nodup
  | [] => List.nodup_nil
  | k :: ks => by
    simp only [firstDedup, List.nodup_cons]
    refine ⟨?_, (firstDedup_nodup ks).filter _⟩
    intro hmem
    have := (List.mem_filter.1 hmem).2
    simp at this

theorem firstDedup_length_le : ∀ l : List Char, (firstDedup l).length ≤ l.length
  | [] => le_refl _
  | k :: ks => by
    simp only [firstDedup, List.length_cons]
    have h1 := List.length_filter_le (fun x => decide (x ≠ k)) (firstDedup ks)
    have h2 := firstDedup_length_le ks
    omega

theorem firstDedup_eq_self_of_nodup : ∀ {l : List Char}, l.Nodup → firstDedup l = l
  | [], _ => rfl
  | k :: ks, h => by
    obtain ⟨hk, hks⟩ := List.nodup_cons.1 h
    simp only [firstDedup, firstDedup_eq_self_of_nodup hks]
    congr 1
    refine List.filter_eq_self.2 ?_
    intro a ha
    simp only [decide_eq_true_eq]
    intro heq
    exact hk (heq ▸ ha)

theorem nodup_of_firstDedup_length : ∀ {l : List Char},
    (firstDedup l).length = l.length → l.Nodup
  | [], _ => List.nodup_nil
  | k :: ks, h => by
    simp only [firstDedup, List.length_cons] at h
    have h1 := List.length_filter_le (fun x => decide (x ≠ k)) (firstDedup ks)
    have h2 := firstDedup_length_le ks
    have heq : (firstDedup ks).length = ks.length := by omega
    have hknot : k ∉ ks := by
      intro hmem
      have hk1 : k ∈ firstDedup ks := mem_firstDedup.2 hmem
      have hlt : ((firstDedup ks).filter (fun x => decide (x ≠ k))).length <
          (firstDedup ks).length :=
        List.length_filter_lt_length_iff_exists.2 ⟨k, hk1, by simp⟩
      omega
    exact List.nodup_cons.2 ⟨hknot, nodup_of_firstDedup_length heq⟩

theorem filter_ne_notMem (seen : List Char) (k : Char) (l : List Char) :
    (l.filter (fun x => decide (x ≠ k))).filter (fun x => decide (x ∉ seen)) =
      l.filter (fun x => decide (x ∉ seen ++ [k])) := by
  rw [List.filter_filter]
  refine List.filter_congr ?_
  intro a _
  simp [List.mem_append, not_or]

theorem filter_notMem_of_mem {seen : List Char} {k : Char} (hk : k ∈ seen) (l : List Char) :
    l.filter (fun x => decide (x ∉ seen ++ [k])) = l.filter (fun x => decide (x ∉ seen)) := by
  refine List.filter_congr ?_
  intro a _
  rw [decide_eq_decide]
  simp only [List.mem_append, List.mem_singleton, not_or]
  constructor
  · rintro ⟨h1, _⟩
    exact h1
  · intro h1
    exact ⟨h1, fun heq => h1 (heq ▸ hk)⟩

theorem foldl_choiceStep_keys : ∀ (raw : List (List Char)) (d : List (Char × List Char)),
    (∀ c ∈ raw, c ≠ []) →
    (raw.foldl choiceStep d).map Prod.fst =
      d.map Prod.fst ++
        (firstDedup (raw.map (fun c => c.headD ' '))).filter
          (fun x => decide (x ∉ d.map Prod.fst))
  | [], d, _ => by simp [firstDedup]
  | c :: raw', d, h => by
    cases c with
    | nil => exact absurd rfl (h [] (by simp))
    | cons k v =>
      rw [List.foldl_cons, show choiceStep d (k :: v) = dictInsert k (pyStrip v) d from rfl]
      rw [foldl_choiceStep_keys raw' (dictInsert k (pyStrip v) d)
        (fun x hx => h x (List.mem_cons_of_mem _ hx))]
      rw [dictInsert_keys]
      simp only [List.map_cons, List.headD_cons, firstDedup, List.filter_cons]
      by_cases hmem : k ∈ d.map Prod.fst
      · rw [if_pos hmem, if_neg (by simpa using hmem)]
        rw [filter_ne_notMem, filter_notMem_of_mem hmem]
      · rw [if_neg hmem, if_pos (by simpa using hmem)]
        rw [filter_ne_notMem]
        simp

theorem buildChoices_keys (raw : List (List Char)) (h : ∀ c ∈ raw, c ≠ []) :
    (buildChoices raw).map Prod.fst = firstDedup (raw.map (fun c => c.headD ' ')) := by
  rw [buildChoices, foldl_choiceStep_keys raw [] h]
  simp

theorem splitChoices_shape : ∀ s : List Char,
    ∃ p rest, splitChoices s = p :: rest ∧
      (∀ c ∈ p, isChoiceLabel c = false) ∧ AltChoices rest
  | [] => ⟨[], [], rfl, by simp, AltChoices.nil⟩
  | c :: cs => by
    obtain ⟨p, rest, he, hp, ha⟩ := splitChoices_shape cs
    by_cases h : isChoiceLabel c = true
    · refine ⟨[], [c] :: p :: rest, ?_, by simp, AltChoices.cons c p rest h ha⟩
      simp only [splitChoices]
      rw [he]
      simp [h]
    · refine ⟨c :: p, rest, ?_, ?_, ha⟩
      · simp only [splitChoices]
        rw [he]
        simp [h]
      · intro x hx
        rcases List.mem_cons.1 hx with rfl | hx2
        · simpa using h
        · exact hp x hx2

theorem splitChoices_length : ∀ s : List Char,
    (splitChoices s).length = 2 * s.countP isChoiceLabel + 1
  | [] => by simp [splitChoices]
  | c :: cs => by
    obtain ⟨p, rest, he, _, _⟩ := splitChoices_shape cs
    have ih := splitChoices_length cs
    rw [he] at ih
    by_cases h : isChoiceLabel c = true
    · simp only [splitChoices]
      rw [he]
      simp only [h, if_true, List.countP_cons, h, List.length_cons]
      simp at ih ⊢
      omega
    · simp only [splitChoices]
      rw [he]
      have h' : isChoiceLabel c = false := by simpa using h
      simp only [h', if_false, Bool.false_eq_true, List.countP_cons, h', List.length_cons]
      simp at ih ⊢
      omega

theorem pairJoin_length : ∀ l : List (List Char), (pairJoin l).length = l.length / 2
  | [] => rfl
  | [a] => by
    simp only [pairJoin, List.length_nil, List.length_cons]
  | _ :: _ :: rest => by
    simp only [pairJoin, List.length_cons]
    rw [pairJoin_length rest]
    omega

theorem pairJoin_alt_mem {rest : List (List Char)} (h : AltChoices rest) :
    ∀ x ∈ pairJoin rest, ∃ k v, x = k :: v ∧ isChoiceLabel k = true := by
  induction h with
  | nil => simp [pairJoin]
  | cons k p rest hk _ ih =>
    intro x hx
    simp only [pairJoin] at hx
    rcases List.mem_cons.1 hx with rfl | hx2
    · exact ⟨k, p, by simp, hk⟩
    · exact ih x hx2

theorem splitChoices_filter : ∀ s : List Char,
    s.filter isChoiceLabel =
      (pairJoin (splitChoices s).tail).map (fun c => c.headD ' ')
  | [] => rfl
  | c :: cs => by
    obtain ⟨p, rest, he, _, _⟩ := splitChoices_shape cs
    have ih := splitChoices_filter cs
    rw [he] at ih
    simp only [List.tail_cons] at ih
    by_cases h : isChoiceLabel c = true
    · simp only [splitChoices]
      rw [he]
      simp only [h, if_true, List.filter_cons, List.tail_cons]
      rw [show pairJoin ([c] :: p :: rest) = ([c] ++ p) :: pairJoin rest from rfl]
      simp [h, ih]
    · have h' : isChoiceLabel c = false := by simpa using h
      simp only [splitChoices]
      rw [he]
      simp only [h', Bool.false_eq_true, if_false, List.filter_cons, h', List.tail_cons]
      exact ih

theorem afterDotSpace_subset : ∀ (s : List Char) {c : Char}, c ∈ afterDotSpace s → c ∈ s
  | [], c, h => by simp [afterDotSpace] at h
  | [a], c, h => by simpa [afterDotSpace] using h
  | a :: b :: rest, c, h => by
    simp only [afterDotSpace] at h
    split_ifs at h with h1 h2
    · exact List.mem_cons_of_mem _ (List.mem_cons_of_mem _ h)
    · exact List.mem_cons_of_mem _ (afterDotSpace_subset (b :: rest) h)
    · exact h

theorem parseSegment_eq_none {s : List Char} (h : s.countP isChoiceLabel < 5) :
    parseSegment s = none := by
  obtain ⟨p, rest, he, _, _⟩ := splitChoices_shape s
  have hlen := splitChoices_length s
  rw [parseSegment]
  by_cases h3 : (splitChoices s).length < 3
  · rw [if_pos h3]
  · rw [if_neg h3]
    have hraw : (rawChoicesOf (splitChoices s)).length < 5 := by
      rw [he, show rawChoicesOf (p :: rest) = pairJoin rest from rfl, pairJoin_length]
      rw [he] at hlen
      simp only [List.length_cons] at hlen
      omega
    rw [if_pos hraw]

theorem parseSegment_some_inv {s : List Char} {r : QuestionRecord}
    (h : parseSegment s = some r) :
    ∃ p rest, splitChoices s = p :: rest ∧
      (∀ c ∈ p, isChoiceLabel c = false) ∧ AltChoices rest ∧
      5 ≤ (pairJoin rest).length ∧
      r.question = pyStrip (afterDotSpace p) ∧
      r.choices = buildChoices ((pairJoin rest).take 5) := by
  obtain ⟨p, rest, he, hp, ha⟩ := splitChoices_shape s
  rw [parseSegment, he, show rawChoicesOf (p :: rest) = pairJoin rest from rfl] at h
  split_ifs at h with h1 h2
  have hr := Option.some.inj h
  refine ⟨p, rest, he, hp, ha, by omega, ?_, ?_⟩
  · rw [← hr]
    simp
  · rw [← hr]

theorem mem_loadQuestions_inv {text : List Char} {r : QuestionRecord}
    (h : r ∈ loadQuestions text) :
    ∃ seg ∈ segmentsOf text, parseSegment seg = some r := by
  rw [loadQuestions] at h
  exact List.mem_filterMap.1 h

theorem scanAux_eq_nil : ∀ (s : List Char) (skip pos : Nat),
    (∀ n, anchorMatchLen (s.drop n) = none) → scanAux skip pos s = []
  | [], _, _, _ => by simp [scanAux]
  | _ :: rest, skip + 1, pos, h =>
    scanAux_eq_nil rest skip (pos + 1) (fun n => by simpa using h (n + 1))
  | c :: rest, 0, pos, h => by
    have h0 : anchorMatchLen (c :: rest) = none := by simpa using h 0
    simp only [scanAux, h0]
    exact scanAux_eq_nil rest 0 (pos + 1) (fun n => by simpa using h (n + 1))

theorem anchorMatchLen_none_of_no_digit {s : List Char}
    (h : ∀ c ∈ s, pyIsDigit c = false) (n : Nat) : anchorMatchLen (s.drop n) = none := by
  cases hd : s.drop n with
  | nil => rfl
  | cons c rest =>
    have hc : c ∈ s := List.drop_subset n s (hd ▸ List.mem_cons_self c rest)
    rw [anchorMatchLen]
    have hz : digitRunLen (c :: rest) = 0 := by
      rw [digitRunLen, h c hc]
      simp
    simp [hz]

theorem digitRunLen_eq_takeWhile (s : List Char) :
    digitRunLen s = (s.takeWhile pyIsDigit).length := by
  induction s with
  | nil => rfl
  | cons c rest ih =>
    cases h : pyIsDigit c with
    | true => simp [digitRunLen, List.takeWhile_cons, h, ih]
    | false => simp [digitRunLen, List.takeWhile_cons, h]

theorem anchorMatchLen_eq_single (s : List Char) :
    anchorMatchLen s = singleSpaceAnchorLen s := by
  rw [anchorMatchLen, singleSpaceAnchorLen, digitRunLen_eq_takeWhile]

theorem scanAux_eq_singleSpace : ∀ (s : List Char) (skip pos : Nat),
    scanAux skip pos s = singleSpaceScanAux skip pos s
  | [], _, _ => by simp [scanAux, singleSpaceScanAux]
  | _ :: rest, skip + 1, pos => by
    simp only [scanAux, singleSpaceScanAux]
    exact scanAux_eq_singleSpace rest skip (pos + 1)
  | c :: rest, 0, pos => by
    simp only [scanAux, singleSpaceScanAux, ← anchorMatchLen_eq_single]
    cases h : anchorMatchLen (c :: rest) with
    | none =>
      simp only [h]
      exact scanAux_eq_singleSpace rest 0 (pos + 1)
    | some len =>
      simp only [h]
      rw [scanAux_eq_singleSpace rest (len - 1) (pos + 1)]

/-! ## Claims -/

/-- Claim C1, counterexample: on the flattened text "1. Q ②a ②b ③c ④d ⑤e",
whose segment repeats the circled digit 2, the parser emits a record whose
choices mapping has fewer than 5 entries and is not keyed by all 5 labels
(the label for 1 is absent), refuting "every QuestionRecord has a choices
mapping with exactly 5 entries, keyed by the 5 distinct circled-digit labels
in canonical order". -/
theorem c1_counterexample :
    ∃ r ∈ loadQuestions c1text,
      r.choices.length ≠ 5 ∧ '①' ∉ r.choices.map Prod.fst := by
  decide

/-- Claim C1, amended: every QuestionRecord produced by the parser has a
choices mapping with between 1 and 5 entries, keyed by pairwise-distinct
circled-digit labels; the key sequence is exactly the first-occurrence
deduplication of the first five choice anchors of the record's segment, so
the keys appear in order of first occurrence in the segment, and the mapping
has exactly 5 entries if and only if those first five anchors are pairwise
distinct (the dict comprehension collapses repeated labels). -/
theorem c1_choices_entries (text : List Char) (r : QuestionRecord)
    (h : r ∈ loadQuestions text) :
    1 ≤ r.choices.length ∧ r.choices.length ≤ 5 ∧
    (r.choices.map Prod.fst).Nodup ∧
    (∀ k ∈ r.choices.map Prod.fst, isChoiceLabel k = true) ∧
    ∃ seg ∈ segmentsOf text, parseSegment seg = some r ∧
      r.choices.map Prod.fst = firstDedup ((seg.filter isChoiceLabel).take 5) ∧
      (r.choices.length = 5 ↔ ((seg.filter isChoiceLabel).take 5).Nodup) := by
  obtain ⟨seg, hsegmem, hseg⟩ := mem_loadQuestions_inv h
  obtain ⟨p, rest, he, hp, ha, h5, hq, hc⟩ := parseSegment_some_inv hseg
  have hshape : ∀ c ∈ (pairJoin rest).take 5, ∃ k v, c = k :: v ∧ isChoiceLabel k = true :=
    fun c hcm => pairJoin_alt_mem ha c (List.take_subset 5 _ hcm)
  have hne : ∀ c ∈ (pairJoin rest).take 5, c ≠ [] := by
    intro c hcm
    obtain ⟨k, v, rfl, _⟩ := hshape c hcm
    simp
  have hf : seg.filter isChoiceLabel = (pairJoin rest).map (fun c => c.headD ' ') := by
    rw [splitChoices_filter seg, he, List.tail_cons]
  have hkeys : r.choices.map Prod.fst = firstDedup ((seg.filter isChoiceLabel).take 5) := by
    rw [hc, buildChoices_keys _ hne, List.map_take, ← hf]
  have hff : ((seg.filter isChoiceLabel).take 5).length = 5 := by
    have hlen : 5 ≤ (seg.filter isChoiceLabel).length := by
      rw [hf, List.length_map]
      exact h5
    rw [List.length_take]
    omega
  have hlenk : r.choices.length = (firstDedup ((seg.filter isChoiceLabel).take 5)).length := by
    rw [← hkeys, List.length_map]
  refine ⟨?_, ?_, ?_, ?_, seg, hsegmem, hseg, hkeys, ?_⟩
  · rw [hlenk]
    cases hcase : (seg.filter isChoiceLabel).take 5 with
    | nil =>
      rw [hcase] at hff
      simp at hff
    | cons a l =>
      simp only [firstDedup, List.length_cons]
      omega
  · rw [hlenk]
    exact le_trans (firstDedup_length_le _) (le_of_eq hff)
  · rw [hkeys]
    exact firstDedup_nodup _
  · intro k hk
    rw [hkeys] at hk
    have hk3 : k ∈ seg.filter isChoiceLabel :=
      List.take_subset 5 _ (mem_firstDedup.1 hk)
    exact (List.mem_filter.1 hk3).2
  · constructor
    · intro h5'
      apply nodup_of_firstDedup_length
      rw [hff, ← hlenk]
      exact h5'
    · intro hnd
      rw [hlenk, firstDedup_eq_self_of_nodup hnd, hff]

/-- Claim C1, witness: the amended invariant at the concrete document
`c1wtext` and its record. -/
theorem c1_witness :
    1 ≤ c1wrec.choices.length ∧ c1wrec.choices.length ≤ 5 ∧
    (c1wrec.choices.map Prod.fst).Nodup ∧
    (∀ k ∈ c1wrec.choices.map Prod.fst, isChoiceLabel k = true) ∧
    ∃ seg ∈ segmentsOf c1wtext, parseSegment seg = some c1wrec ∧
      c1wrec.choices.map Prod.fst = firstDedup ((seg.filter isChoiceLabel).take 5) ∧
      (c1wrec.choices.length = 5 ↔ ((seg.filter isChoiceLabel).take 5).Nodup) :=
  c1_choices_entries c1wtext c1wrec (by decide)

/-- Claim C2, counterexample: on the flattened text "1. ①a ②b ③c ④d ⑤e",
whose numeral anchor is immediately followed by the first choice anchor, the
parser emits a record whose questionText is empty, refuting "questionText is
non-empty after trimming and after removal of the leading numeral prefix". -/
theorem c2_counterexample :
    ∃ r ∈ loadQuestions c2text, r.question = [] := by
  decide

/-- Claim C2, amended: the questionText of every QuestionRecord carries no
leading or trailing whitespace (it is trimmed, and stripping it again changes
nothing), but it may be empty when the segment body before the first choice
anchor reduces to the empty string. -/
theorem c2_question_trimmed (text : List Char) (r : QuestionRecord)
    (h : r ∈ loadQuestions text) : pyStrip r.question = r.question := by
  obtain ⟨seg, _, hseg⟩ := mem_loadQuestions_inv h
  obtain ⟨p, rest, he, hp, ha, h5, hq, hc⟩ := parseSegment_some_inv hseg
  rw [hq, pyStrip_idem]

/-- Claim C2, witness: the amended invariant at the concrete document
`c2wtext` and its record. -/
theorem c2_witness : pyStrip c2wrec.question = c2wrec.question :=
  c2_question_trimmed c2wtext c2wrec (by decide)

/-- Claim C3, counterexample: in the text "1.\tx" the spec's pattern (digits,
'.', one or more whitespace characters) occurs at offset 0, but the code's
scan, whose regex requires a single literal space, finds no anchor there:
the anchor-discovery step does not recognize an anchor at every occurrence of
the spec's pattern. -/
theorem c3_counterexample :
    specFindAnchors c3text = [0] ∧ findAnchors c3text = [] := by
  decide

/-- Claim C3, amended: the anchor-discovery step recognizes a question anchor
at exactly the non-overlapping occurrences, scanning left to right, of the
pattern "one or more decimal digits, followed by '.', followed by exactly one
space character" (the code's regex matches one literal space, not arbitrary
whitespace). -/
theorem c3_anchor_pattern (text : List Char) :
    findAnchors text = singleSpaceFindAnchors text :=
  scanAux_eq_singleSpace text 0 0

/-- Claim C4, counterexample: an HTTP error response and an HTTP 200 response
with an empty results list produce the very same return value (the empty
list), so a caller inspecting only the returned value cannot tell a
transport/auth failure from "no results". -/
theorem c4_counterexample :
    bingSearch true (HttpOutcome.httpError 401 "Access Denied".data) =
      bingSearch true (HttpOutcome.ok []) := by
  decide

/-- Claim C4, amended: on every HTTP error status the search operation
returns the empty list, identical to what it returns for HTTP 200 with an
empty results list; the failure is reported only through UI side effects
(`st.error` / `st.code`), never through the returned value. -/
theorem c4_error_indistinguishable (hasKey : Bool) (status : Nat) (body : List Char) :
    bingSearch hasKey (HttpOutcome.httpError status body) = [] ∧
    bingSearch hasKey (HttpOutcome.httpError status body) =
      bingSearch hasKey (HttpOutcome.ok []) := by
  cases hasKey <;> simp [bingSearch]

/-- Claim C5, counterexample: a paragraph string containing an embedded
newline keeps it through `normalize` (Python str.strip only trims the ends),
refuting "for every sequence of paragraph strings the FlatText contains no
embedded newline". -/
theorem c5_counterexample : '\n' ∈ normalize [['A', '\n', 'B']] := by
  decide

/-- Claim C5, amended: provided each paragraph's trimmed text contains no
newline, the FlatText produced by `normalize` contains no newline; paragraph
order is preserved (`normalize` distributes over concatenation up to a single
separating space); a whitespace-only paragraph contributes nothing, not even
a separator, and in particular normalize(["", "  ", "A"]) = "A". -/
theorem c5_normalize_props (ps qs : List (List Char)) (w : List Char)
    (hnl : ∀ p ∈ ps, ∀ c ∈ pyStrip p, c ≠ '\n') (hw : pyStrip w = []) :
    (∀ c ∈ normalize ps, c ≠ '\n') ∧
    normalize (ps ++ w :: qs) = normalize (ps ++ qs) ∧
    normalize (ps ++ qs) = spaceJoin (normalize ps) (normalize qs) ∧
    normalize [[], [' ', ' '], ['A']] = ['A'] := by
  have hmf : ∀ (l : List (List Char)),
      ∀ x ∈ (l.map pyStrip).filter (fun s => !s.isEmpty), x ≠ [] := by
    intro l x hx
    have hx2 := (List.mem_filter.1 hx).2
    simpa [List.isEmpty_iff] using hx2
  refine ⟨?_, ?_, ?_, by decide⟩
  · intro c hc
    rcases mem_joinSp hc with h1 | ⟨s, hs1, hs2⟩
    · rw [h1]
      decide
    · obtain ⟨hs3, _⟩ := List.mem_filter.1 hs1
      obtain ⟨p, hp1, hp2⟩ := List.mem_map.1 hs3
      exact hnl p hp1 c (hp2 ▸ hs2)
  · have hfil : ((ps ++ w :: qs).map pyStrip).filter (fun s => !s.isEmpty) =
        ((ps ++ qs).map pyStrip).filter (fun s => !s.isEmpty) := by
      simp [List.filter_append, hw]
    rw [normalize, normalize, hfil]
  · rw [normalize, normalize, normalize, List.map_append, List.filter_append,
      joinSp_append _ _ (hmf ps) (hmf qs)]

/-- Claim C5, witness: the amended statement at concrete paragraphs. -/
theorem c5_witness :
    (∀ c ∈ normalize [['A', 'B']], c ≠ '\n') ∧
    normalize ([['A', 'B']] ++ [' '] :: [['C']]) = normalize ([['A', 'B']] ++ [['C']]) ∧
    normalize ([['A', 'B']] ++ [['C']]) = spaceJoin (normalize [['A', 'B']]) (normalize [['C']]) ∧
    normalize [[], [' ', ' '], ['A']] = ['A'] :=
  c5_normalize_props [['A', 'B']] [['C']] [' '] (by decide) (by decide)

/-- Claim C6 (confirmed): a segment with 1 to 4 choice anchors yields no
QuestionRecord, and relative to a variant document in which that segment
parses successfully the result sequence is the same except for the one extra
record: one record longer, other questions unaffected. -/
theorem c6_short_segment_dropped (t t' : List Char) (A B : List (List Char))
    (s s' : List Char) (r : QuestionRecord)
    (ht : segmentsOf t = A ++ s :: B) (ht' : segmentsOf t' = A ++ s' :: B)
    (h1 : 1 ≤ s.countP isChoiceLabel) (h4 : s.countP isChoiceLabel ≤ 4)
    (hs' : parseSegment s' = some r) :
    loadQuestions t = A.filterMap parseSegment ++ B.filterMap parseSegment ∧
    loadQuestions t' = A.filterMap parseSegment ++ r :: B.filterMap parseSegment ∧
    (loadQuestions t').length = (loadQuestions t).length + 1 := by
  have hnone : parseSegment s = none := parseSegment_eq_none (by omega)
  have e1 : loadQuestions t = A.filterMap parseSegment ++ B.filterMap parseSegment := by
    rw [loadQuestions, ht, List.filterMap_append]
    rw [List.filterMap_cons, hnone]
  have e2 : loadQuestions t' = A.filterMap parseSegment ++ r :: B.filterMap parseSegment := by
    rw [loadQuestions, ht', List.filterMap_append]
    rw [List.filterMap_cons, hs']
  refine ⟨e1, e2, ?_⟩
  rw [e1, e2]
  simp only [List.length_append, List.length_cons]
  omega

/-- Claim C6, witness: the concrete document `c6t` (first segment missing
its fifth anchor) against its repaired variant `c6t'`. -/
theorem c6_witness :
    loadQuestions c6t =
      List.filterMap parseSegment [] ++ List.filterMap parseSegment c6B ∧
    loadQuestions c6t' =
      List.filterMap parseSegment [] ++ c6rec :: List.filterMap parseSegment c6B ∧
    (loadQuestions c6t').length = (loadQuestions c6t).length + 1 :=
  c6_short_segment_dropped c6t c6t' [] c6B c6s c6s' c6rec
    (by decide) (by decide) (by decide) (by decide) (by decide)

/-- Claim C7 (confirmed): the end-to-end scenario of the spec: normalizing
and parsing the two concrete Korean paragraphs yields exactly one record,
with the expected question text and the expected first and fifth choices
(indeed all five choices). -/
theorem c7_end_to_end : loadQuestionsFromDocx c7paragraphs = [c7rec] := by
  decide

/-- Claim C8 (confirmed): on "1. Q ①aaa②bbb③ccc④ddd⑤eee" (no whitespace
before the following anchor) the parser still yields the 5 choices, each
anchor character appearing only as the key of its own choice and stripped
from every value. -/
theorem c8_adjacent_anchors :
    loadQuestions c8text = [c8rec] ∧
    ∀ r ∈ loadQuestions c8text, ∀ kv ∈ r.choices, ∀ c ∈ kv.2, isChoiceLabel c = false := by
  decide

/-- Claim C9 (confirmed): on any text in which the question-anchor pattern
matches at no offset, the parser returns the empty sequence (and, being a
total function, raises no error). -/
theorem c9_no_anchor_empty (text : List Char)
    (h : ∀ n, anchorMatchLen (text.drop n) = none) : loadQuestions text = [] := by
  have h1 : findAnchors text = [] := scanAux_eq_nil text 0 0 h
  rw [loadQuestions, segmentsOf, h1]
  rfl

/-- Claim C9, witness: a concrete digit-free text. -/
theorem c9_witness : loadQuestions c9text = [] :=
  c9_no_anchor_empty c9text (anchorMatchLen_none_of_no_digit (by decide))

/-- Claim C10 (confirmed): the questionText of every QuestionRecord contains
no circled-digit character: the question body comes from the piece of the
segment strictly before the first choice anchor. -/
theorem c10_question_no_label (text : List Char) (r : QuestionRecord)
    (h : r ∈ loadQuestions text) : ∀ c ∈ r.question, isChoiceLabel c = false := by
  obtain ⟨seg, _, hseg⟩ := mem_loadQuestions_inv h
  obtain ⟨p, rest, he, hp, ha, h5, hq, hc⟩ := parseSegment_some_inv hseg
  intro c hcm
  rw [hq] at hcm
  exact hp c (afterDotSpace_subset p (mem_of_mem_pyStrip hcm))

/-- Claim C10, witness: the invariant at the concrete document `c10wtext`,
its record, and the character of its question text. -/
theorem c10_witness : isChoiceLabel 'X' = false :=
  c10_question_no_label c10wtext c10wrec (by decide) 'X' (by decide)

end LaborQuiz
